import Mathlib

/-!
Stack-based text editor: undo/redo history model

A shallow embedding of `src/stack_text_editor.cpp` (class
`DynamicStackBasedTextEditor` and the command loop of `main`) together with
theorems about its insert / delete / undo / redo operations, its file
commands and its command dispatch.

Modelling conventions

* `std::string` is a `List Char`; `std::stack` is a `List` whose head is the
  top of the stack.
* An action is the pair `(first, second)` of the source: `first` is the tag
  string (`"insert"` or `"delete"`), `second` the payload.
* Every member function returns the new editor state together with the line it
  writes to `std::cout` (`Output`); a member function that can leave through an
  exception returns `Except Exception _`.
* `size_t` arithmetic is arithmetic modulo `2 ^ 64`.
* The file system is a map from paths to file contents, passed in and out of
  the member functions that touch it.
-/

namespace DynamicStackBasedTextEditor

/-- An entry of `undoStack` / `redoStack`: `std::pair<std::string, std::string>`,
tag first, payload second. -/
abbrev Action := String × List Char

/-- The action `{"insert", payload}` pushed by `insert`. -/
def Action.Insert (payload : List Char) : Action := ("insert", payload)

/-- The action `{"delete", payload}` pushed by `deleteText`. -/
def Action.Delete (payload : List Char) : Action := ("delete", payload)

/-- The private data members of the class. -/
structure Editor where
  text : List Char
  undoStack : List Action
  redoStack : List Action
  currentFile : List Char
deriving DecidableEq, Repr

/-- The constructor: `text("")`, `currentFile("")`, both stacks empty. -/
def Editor.empty : Editor :=
  { text := [], undoStack := [], redoStack := [], currentFile := [] }

/-- The line a member function writes to `std::cout`. -/
inductive Output where
  /-- `Inserted: '<insertText>' -> Current Text: '<text>'` -/
  | Inserted (insertText text : List Char)
  /-- `Deleted all instances of: '<textToDelete>' -> Current Text: '<text>'` -/
  | Deleted (textToDelete text : List Char)
  /-- `Text '<textToDelete>' not found in current text.` -/
  | TextNotFound (textToDelete : List Char)
  /-- `Nothing to undo!` -/
  | NothingToUndo
  /-- `Undo Insert -> Current Text: '<text>'` -/
  | UndoInsert (text : List Char)
  /-- `Undo Delete -> Current Text: '<text>'` -/
  | UndoDelete (text : List Char)
  /-- `Nothing to redo!` -/
  | NothingToRedo
  /-- `Redo Insert -> Current Text: '<text>'` -/
  | RedoInsert (text : List Char)
  /-- `Redo Delete -> Current Text: '<text>'` -/
  | RedoDelete (text : List Char)
  /-- `File '<filePath>' already exists.` -/
  | FileAlreadyExists (filePath : List Char)
  /-- `New file '<filePath>' created and loaded.` -/
  | FileCreated (filePath : List Char)
  /-- `Loaded text from '<filePath>':` followed by the text. -/
  | Loaded (filePath text : List Char)
  /-- `File '<filePath>' not found.` -/
  | FileNotFound (filePath : List Char)
  /-- `Text saved to '<currentFile>'` -/
  | TextSaved (currentFile : List Char)
  /-- `No file specified. Use 'save <filename>' to specify a file.` -/
  | NoFileSpecified
  /-- `Current Text: '<text>'` -/
  | CurrentText (text : List Char)
  /-- `Invalid command. Try again.` -/
  | InvalidCommand
deriving DecidableEq, Repr

/-- The exceptions the modelled member functions can leave through. -/
inductive Exception where
  /-- `std::out_of_range`, thrown by `std::string::erase(pos)` and `std::string::substr(pos)`
  when `pos > size()`. -/
  | out_of_range
deriving DecidableEq, Repr

/-- The number of values of `size_t`. -/
def SIZE_MOD : Nat := 2 ^ 64

/-- Subtraction of two `size_t` values, wrapping modulo `2 ^ 64`. -/
def sizeSub (a b : Nat) : Nat := (a + SIZE_MOD - b) % SIZE_MOD

/-- The call `text.find(str, pos)` of `std::string`: the lowest index `i` with `pos ≤ i`,
`i + str.size() ≤ text.size()` and `text[i .. i + str.size()) = str`; `none` is `npos`. -/
def find (text str : List Char) (pos : Nat) : Option Nat :=
  (List.range (text.length + 1)).find? (fun i => decide (pos ≤ i) && str.isPrefixOf (text.drop i))

/-- The call `text.erase(pos)` of `std::string`: throws `std::out_of_range` when
`pos > size()`, otherwise removes everything from index `pos` on. -/
def erase (text : List Char) (pos : Nat) : Except Exception (List Char) :=
  if pos > text.length then .error .out_of_range else .ok (text.take pos)

/-- Modelled from the spec: the comparison `*it == value` that `std::remove` evaluates at
lines 106 and 159 between a character of the buffer and the `std::string` handed to it. No
`operator==` between `char` and `std::string` is declared in the source (nor by the headers
it includes), so the source leaves its meaning open; the spec reads it as "the character is
a member of the character set of the target". -/
def charEqString (c : Char) (value : List Char) : Bool := value.contains c

/-- The erase-remove idiom `text.erase(std::remove(text.begin(), text.end(), value), text.end())`:
keeps, in order, the characters that do not compare equal to `value`. -/
def eraseRemove (text value : List Char) : List Char :=
  text.filter (fun c => !charEqString c value)

/-- The `while (pos != npos)` loop of `findOccurrences`: `pos` is the loop variable,
`positions` the vector built so far. The loop ends because each position found lies beyond
the previous one and none lies beyond `text.size()`. -/
def findOccurrences.loop (text target : List Char) (pos : Option Nat) (positions : List Nat) :
    List Nat :=
  match pos with
  | none => positions
  | some p => findOccurrences.loop text target (find text target (p + 1)) (positions ++ [p])
termination_by (match pos with | none => 0 | some p => text.length + 1 - p + 1)
decreasing_by
  cases h : find text target (p + 1) with
  | none => simp only; omega
  | some q =>
    unfold find at h
    have h1 := List.find?_some h
    have h2 := List.mem_of_find?_eq_some h
    simp only [Bool.and_eq_true, decide_eq_true_eq] at h1
    rw [List.mem_range] at h2
    simp only
    omega

/-- `findOccurrences`: every position at which `target` is found in `text`. -/
def findOccurrences (text target : List Char) : List Nat :=
  findOccurrences.loop text target (find text target 0) []

/-- `insert` (lines 88-96). -/
def insert (s : Editor) (newText : List Char) : Editor × Output :=
  let insertText := (if s.text.isEmpty then [] else [' ']) ++ newText
  let s1 := { s with undoStack := ("insert", insertText) :: s.undoStack }
  let s2 := { s1 with redoStack := [] }
  let s3 := { s2 with text := s2.text ++ insertText }
  (s3, .Inserted insertText s3.text)

/-- `deleteText` (lines 98-113). -/
def deleteText (s : Editor) (textToDelete : List Char) : Editor × Output :=
  let positions := findOccurrences s.text textToDelete
  if !positions.isEmpty then
    let s1 := { s with undoStack := ("delete", textToDelete) :: s.undoStack }
    let s2 := { s1 with redoStack := [] }
    let s3 := { s2 with text := eraseRemove s2.text textToDelete }
    (s3, .Deleted textToDelete s3.text)
  else
    (s, .TextNotFound textToDelete)

/-- `undo` (lines 115-138). The result is `.error` when `text.erase` throws; the output is
`none` when nothing is printed (an action whose tag is neither string). -/
def undo (s : Editor) : Except Exception (Editor × Option Output) :=
  match s.undoStack with
  | [] => .ok (s, some .NothingToUndo)
  | action :: rest =>
    let s1 := { s with undoStack := rest }
    if action.1 = "insert" then
      match erase s1.text (sizeSub s1.text.length action.2.length) with
      | .error e => .error e
      | .ok t =>
        let s2 := { s1 with text := t }
        let s3 := { s2 with redoStack := action :: s2.redoStack }
        .ok (s3, some (.UndoInsert s3.text))
    else if action.1 = "delete" then
      let s2 := { s1 with text := s1.text ++ action.2 }
      let s3 := { s2 with redoStack := action :: s2.redoStack }
      .ok (s3, some (.UndoDelete s3.text))
    else
      .ok (s1, none)

/-- `redo` (lines 140-163). The output is `none` when nothing is printed. -/
def redo (s : Editor) : Editor × Option Output :=
  match s.redoStack with
  | [] => (s, some .NothingToRedo)
  | action :: rest =>
    let s1 := { s with redoStack := rest }
    if action.1 = "insert" then
      let s2 := { s1 with text := s1.text ++ action.2 }
      let s3 := { s2 with undoStack := action :: s2.undoStack }
      (s3, some (.RedoInsert s3.text))
    else if action.1 = "delete" then
      let s2 := { s1 with text := eraseRemove s1.text action.2 }
      let s3 := { s2 with undoStack := action :: s2.undoStack }
      (s3, some (.RedoDelete s3.text))
    else
      (s1, none)

/-- The effect of one recorded action on a buffer, in the spec's words: Insert appends its
payload, Delete applies its character-set removal. -/
def applyAction (buffer : List Char) (a : Action) : List Char :=
  if a.1 = "insert" then buffer ++ a.2
  else if a.1 = "delete" then buffer.filter (fun c => decide (c ∉ a.2))
  else buffer

/-- Replaying a stack of actions (head is the top) bottom to top, starting from the empty
string. -/
def replay (stack : List Action) : List Char :=
  stack.foldr (fun a buffer => applyAction buffer a) []

/-- The editor states reachable from the empty editor by any sequence of `insert`,
`deleteText`, `undo` and `redo`; a call of `undo` that throws has no successor state. -/
inductive Reachable : Editor → Prop where
  | empty : Reachable Editor.empty
  | insert (s : Editor) (newText : List Char) : Reachable s → Reachable (insert s newText).1
  | deleteText (s : Editor) (textToDelete : List Char) :
      Reachable s → Reachable (deleteText s textToDelete).1
  | undo (s s' : Editor) (o : Option Output) :
      Reachable s → undo s = .ok (s', o) → Reachable s'
  | redo (s : Editor) : Reachable s → Reachable (redo s).1

/-- The editor states reachable from the empty editor by `insert`, `deleteText`, `redo` and
those calls of `undo` that do not pop a `"delete"` action and are made while the buffer
length is a `size_t` value. -/
inductive ReachableNoUndoDelete : Editor → Prop where
  | empty : ReachableNoUndoDelete Editor.empty
  | insert (s : Editor) (newText : List Char) :
      ReachableNoUndoDelete s → ReachableNoUndoDelete (insert s newText).1
  | deleteText (s : Editor) (textToDelete : List Char) :
      ReachableNoUndoDelete s → ReachableNoUndoDelete (deleteText s textToDelete).1
  | undo (s s' : Editor) (o : Option Output) :
      ReachableNoUndoDelete s → (∀ a ∈ s.undoStack.head?, a.1 ≠ "delete") →
      s.text.length < SIZE_MOD → undo s = .ok (s', o) → ReachableNoUndoDelete s'
  | redo (s : Editor) : ReachableNoUndoDelete s → ReachableNoUndoDelete (redo s).1

/-- The editor after `insert(x1)`, ..., `insert(xn)` from the empty editor. -/
def insertAll (xs : List (List Char)) : Editor :=
  xs.foldl (fun s x => (insert s x).1) Editor.empty

/-- The payloads recorded on a stack (head is the top), bottom to top. -/
def payloads (stack : List Action) : List (List Char) :=
  stack.reverse.map (fun a => a.2)

/-- The payload of `insert(newText)` in the spec's words: a single space followed by
`newText` if the buffer is non-empty, else `newText` verbatim. -/
def insertPayload (buffer newText : List Char) : List Char :=
  if buffer = [] then newText else ' ' :: newText

/-- The files the program can see: a path is mapped to the content of the file at that path,
or to `none` when `std::filesystem::exists` is false for it. Opening a stream on a path is
taken to succeed. -/
abbrev FileSystem := List Char → Option (List Char)

/-- Writing `content` through a fresh `std::ofstream` on `path`: the file is created or
truncated and then holds `content`. -/
def FileSystem.write (fs : FileSystem) (path content : List Char) : FileSystem :=
  fun q => if q = path then some content else fs q

/-- `createFile` (lines 32-50). -/
def createFile (s : Editor) (fs : FileSystem) (filePath : List Char) :
    Editor × FileSystem × Output :=
  if (fs filePath).isSome then
    (s, fs, .FileAlreadyExists filePath)
  else
    let fs1 := fs.write filePath []
    let s1 := { s with currentFile := filePath }
    let s2 := { s1 with text := [] }
    let s3 := { s2 with undoStack := [] }
    let s4 := { s3 with redoStack := [] }
    (s4, fs1, .FileCreated filePath)

/-- `loadFile` (lines 52-66); the file system is only read. -/
def loadFile (s : Editor) (fs : FileSystem) (filePath : List Char) : Editor × Output :=
  match fs filePath with
  | some content =>
    let s1 := { s with text := content }
    let s2 := { s1 with currentFile := filePath }
    (s2, .Loaded filePath s2.text)
  | none => (s, .FileNotFound filePath)

/-- `saveFile` (lines 68-86). -/
def saveFile (s : Editor) (fs : FileSystem) (filePath : List Char) :
    Editor × FileSystem × Output :=
  let s1 := if !filePath.isEmpty then { s with currentFile := filePath } else s
  if !s1.currentFile.isEmpty then
    (s1, fs.write s1.currentFile s1.text, .TextSaved s1.currentFile)
  else
    (s1, fs, .NoFileSpecified)

/-- `displayText` (lines 165-168). -/
def displayText (s : Editor) : Output := .CurrentText s.text

/-- The call `str.substr(pos)` of `std::string`: throws `std::out_of_range` when
`pos > size()`, otherwise the characters from index `pos` on. -/
def substr (str : List Char) (pos : Nat) : Except Exception (List Char) :=
  if pos > str.length then .error .out_of_range else .ok (str.drop pos)

/-- The call `text.rfind(str, pos)` of `std::string`: the highest index `i` with `i ≤ pos`,
`i + str.size() ≤ text.size()` and `text[i .. i + str.size()) = str`; `none` is `npos`. -/
def rfind (text str : List Char) (pos : Nat) : Option Nat :=
  (List.range (min pos text.length + 1)).reverse.find? (fun i => str.isPrefixOf (text.drop i))

/-- The outcome of one pass through the body of the `while (true)` loop of `main`. -/
inductive LoopStep where
  /-- The loop goes on with this editor and file system, having printed `out`. -/
  | next (s : Editor) (fs : FileSystem) (out : Option Output)
  /-- The `break` of the `quit` command. -/
  | quit

/-- The body of the `while (true)` loop of `main` (lines 183-222) for the line `command` read
by `std::getline`. The result is `.error` when an exception leaves the body, which ends the
program since `main` catches nothing. -/
def mainStep (s : Editor) (fs : FileSystem) (command : List Char) : Except Exception LoopStep :=
  if rfind command "create".toList 0 = some 0 then
    match substr command 7 with
    | .error e => .error e
    | .ok arg => .ok (.next (createFile s fs arg).1 (createFile s fs arg).2.1
        (some (createFile s fs arg).2.2))
  else if rfind command "load".toList 0 = some 0 then
    match substr command 5 with
    | .error e => .error e
    | .ok arg => .ok (.next (loadFile s fs arg).1 fs (some (loadFile s fs arg).2))
  else if rfind command "save".toList 0 = some 0 then
    match substr command 5 with
    | .error e => .error e
    | .ok arg => .ok (.next (saveFile s fs arg).1 (saveFile s fs arg).2.1
        (some (saveFile s fs arg).2.2))
  else if rfind command "insert".toList 0 = some 0 then
    match substr command 7 with
    | .error e => .error e
    | .ok arg => .ok (.next (insert s arg).1 fs (some (insert s arg).2))
  else if rfind command "delete".toList 0 = some 0 then
    match substr command 7 with
    | .error e => .error e
    | .ok arg => .ok (.next (deleteText s arg).1 fs (some (deleteText s arg).2))
  else if command = "undo".toList then
    match undo s with
    | .error e => .error e
    | .ok r => .ok (.next r.1 fs r.2)
  else if command = "redo".toList then
    .ok (.next (redo s).1 fs (redo s).2)
  else if command = "display".toList then
    .ok (.next s fs (some (displayText s)))
  else if command = "quit".toList then
    .ok .quit
  else
    .ok (.next s fs (some .InvalidCommand))

/-- The text `target` occurs in `text` at index `i` as a contiguous substring. -/
def occursAt (text target : List Char) (i : Nat) : Prop :=
  i + target.length ≤ text.length ∧ (text.drop i).take target.length = target

instance occursAt.decidable (text target : List Char) (i : Nat) :
    Decidable (occursAt text target i) := by
  unfold occursAt
  infer_instance

/-- The editor states reachable from the empty editor by `insert`, `redo` and calls of `undo`
made while the buffer length is a `size_t` value (no `deleteText`, no `loadFile`). -/
inductive ReachableInsertOnly : Editor → Prop where
  | empty : ReachableInsertOnly Editor.empty
  | insert (s : Editor) (newText : List Char) :
      ReachableInsertOnly s → ReachableInsertOnly (insert s newText).1
  | undo (s s' : Editor) (o : Option Output) :
      ReachableInsertOnly s → s.text.length < SIZE_MOD → undo s = .ok (s', o) →
      ReachableInsertOnly s'
  | redo (s : Editor) : ReachableInsertOnly s → ReachableInsertOnly (redo s).1

/-! ## Auxiliary lemmas -/

theorem find_bounds {text str : List Char} {pos p : Nat} (h : find text str pos = some p) :
    pos ≤ p ∧ p ≤ text.length := by
  unfold find at h
  have h1 := List.find?_some h
  have h2 := List.mem_of_find?_eq_some h
  simp only [Bool.and_eq_true, decide_eq_true_eq] at h1
  rw [List.mem_range] at h2
  omega

theorem loop_none (text target : List Char) (positions : List Nat) :
    findOccurrences.loop text target none positions = positions := by
  rw [findOccurrences.loop]

theorem loop_some (text target : List Char) (p : Nat) (positions : List Nat) :
    findOccurrences.loop text target (some p) positions
      = findOccurrences.loop text target (find text target (p + 1)) (positions ++ [p]) := by
  rw [findOccurrences.loop]

theorem loop_isEmpty (text target : List Char) (pos : Option Nat) :
    (findOccurrences.loop text target pos []).isEmpty = true ↔ pos = none := by
  constructor
  · intro h
    cases pos with
    | none => rfl
    | some p =>
      exfalso
      have key : ∀ (q : Option Nat) (acc : List Nat), acc ≠ [] →
          findOccurrences.loop text target q acc ≠ [] := by
        intro q acc
        induction q, acc using findOccurrences.loop.induct text target with
        | case1 acc => intro hacc; rw [loop_none]; exact hacc
        | case2 acc p ih =>
          intro _
          rw [loop_some]
          exact ih (by simp)
      rw [loop_some] at h
      exact key _ _ (by simp) (List.isEmpty_iff.mp h)
  · rintro rfl
    rw [loop_none]
    rfl

theorem find_zero_eq_none_iff (text target : List Char) :
    find text target 0 = none ↔ ¬ target <:+: text := by
  unfold find
  rw [List.find?_eq_none]
  constructor
  · intro h hin
    obtain ⟨t, hpre, hsuf⟩ := List.infix_iff_prefix_suffix.mp hin
    rw [List.suffix_iff_eq_drop] at hsuf
    apply h (text.length - t.length) (by rw [List.mem_range]; omega)
    simp only [Nat.zero_le, decide_True, Bool.true_and]
    rw [ List.isPrefixOf_iff_prefix, ← hsuf]
    exact hpre
  · intro h i _ hi
    apply h
    simp only [Nat.zero_le, decide_True, Bool.true_and] at hi
    rw [ List.isPrefixOf_iff_prefix] at hi
    exact List.infix_iff_prefix_suffix.mpr ⟨_, hi, List.drop_suffix i text⟩

theorem findOccurrences_isEmpty (text target : List Char) :
    (findOccurrences text target).isEmpty = true ↔ ¬ target <:+: text := by
  unfold findOccurrences
  rw [loop_isEmpty, find_zero_eq_none_iff]

theorem eraseRemove_eq_filter (text value : List Char) :
    eraseRemove text value = text.filter (fun c => decide (c ∉ value)) := by
  unfold eraseRemove charEqString
  congr 1
  funext c
  simp

theorem deleteText_of_occurs (s : Editor) (target : List Char) (h : target <:+: s.text) :
    deleteText s target =
      ({ s with undoStack := ("delete", target) :: s.undoStack, redoStack := [],
                text := eraseRemove s.text target },
        .Deleted target (eraseRemove s.text target)) := by
  have h1 : (findOccurrences s.text target).isEmpty = false := by
    rw [Bool.eq_false_iff, Ne, findOccurrences_isEmpty]
    exact not_not.mpr h
  simp [deleteText, h1]

theorem deleteText_of_absent (s : Editor) (target : List Char) (h : ¬ target <:+: s.text) :
    deleteText s target = (s, .TextNotFound target) := by
  have h1 := (findOccurrences_isEmpty s.text target).mpr h
  simp [deleteText, h1]

theorem sizeSub_add_right (n k : Nat) (h : n < SIZE_MOD) : sizeSub (n + k) k = n := by
  unfold sizeSub
  have h1 : n + k + SIZE_MOD - k = n + SIZE_MOD := by omega
  rw [h1, Nat.add_mod_right, Nat.mod_eq_of_lt h]

theorem insert_fst (s : Editor) (newText : List Char) :
    (insert s newText).1 =
      { text := s.text ++ insertPayload s.text newText,
        undoStack := Action.Insert (insertPayload s.text newText) :: s.undoStack,
        redoStack := [],
        currentFile := s.currentFile } := by
  cases h : s.text <;> simp [insert, insertPayload, Action.Insert, h]

theorem undo_insert_top (s : Editor) (p : List Char) (rest : List Action) (r : List Char)
    (hstack : s.undoStack = ("insert", p) :: rest) (htext : s.text = r ++ p)
    (hlen : r.length < SIZE_MOD) :
    undo s = .ok ({ s with text := r, undoStack := rest, redoStack := ("insert", p) :: s.redoStack },
                  some (.UndoInsert r)) := by
  unfold undo
  rw [hstack]
  simp only [if_true, htext, List.length_append, sizeSub_add_right _ _ hlen, erase]
  simp

theorem intercalate_concat (sep : List Char) (xs : List (List Char)) (x : List Char) :
    List.intercalate sep (xs ++ [x])
      = if xs = [] then x else List.intercalate sep xs ++ (sep ++ x) := by
  induction xs with
  | nil => simp [List.intercalate]
  | cons a t ih =>
    cases t with
    | nil => simp [List.intercalate]
    | cons b l =>
      simp only [List.intercalate, List.cons_append, List.intersperse_cons₂,
        List.flatten_cons] at ih ⊢
      simp only [reduceCtorEq, if_false] at ih ⊢
      rw [ih]
      simp

theorem insertAll_concat (xs : List (List Char)) (x : List Char) :
    insertAll (xs ++ [x]) = (insert (insertAll xs) x).1 := by
  simp [insertAll, List.foldl_append]

theorem insertAll_payloads (xs : List (List Char)) :
    (insertAll xs).text = (payloads (insertAll xs).undoStack).flatten := by
  induction xs using List.reverseRecOn with
  | nil => rfl
  | append_singleton xs x ih =>
    rw [insertAll_concat, insert_fst]
    simp only [payloads, Action.Insert, List.reverse_cons, List.map_append, List.map_cons,
      List.map_nil, List.flatten_concat]
    rw [ih]
    rfl

theorem insertAll_intercalate (xs : List (List Char)) (hne : ∀ x ∈ xs, x ≠ []) :
    (insertAll xs).text = List.intercalate [' '] xs ∧ (xs ≠ [] → (insertAll xs).text ≠ []) := by
  induction xs using List.reverseRecOn with
  | nil => exact ⟨rfl, fun h => absurd rfl h⟩
  | append_singleton xs x ih =>
    have hx : x ≠ [] := hne x (by simp)
    obtain ⟨ih1, ih2⟩ := ih (fun y hy => hne y (by simp [hy]))
    rw [insertAll_concat, insert_fst, intercalate_concat]
    by_cases hxs : xs = []
    · subst hxs
      have h0 : (insertAll []).text = [] := rfl
      simp [h0, insertPayload, hx]
    · have h1 := ih2 hxs
      rw [ih1] at h1
      simp [insertPayload, h1, hxs, ih1]

theorem replay_cons (a : Action) (stack : List Action) :
    replay (a :: stack) = applyAction (replay stack) a := rfl

theorem applyAction_insert (buffer p : List Char) :
    applyAction buffer ("insert", p) = buffer ++ p := by
  simp [applyAction]

theorem applyAction_delete (buffer t : List Char) :
    applyAction buffer ("delete", t) = eraseRemove buffer t := by
  rw [eraseRemove_eq_filter]
  simp [applyAction]

theorem eraseRemove_append_self (buffer t : List Char) :
    eraseRemove (buffer ++ t) t = eraseRemove buffer t := by
  simp only [eraseRemove_eq_filter, List.filter_append]
  have h : t.filter (fun c => decide (c ∉ t)) = [] := by
    rw [List.filter_eq_nil_iff]
    intro c hc
    simpa using hc
  rw [h, List.append_nil]

theorem eraseRemove_idem (buffer t : List Char) :
    eraseRemove (eraseRemove buffer t) t = eraseRemove buffer t := by
  simp only [eraseRemove_eq_filter, List.filter_filter, Bool.and_self]

/-- The invariant kept on the way to a `ReachableNoUndoDelete` state: the buffer is the replay
of the undo stack, and every action on the undo stack carries one of the two tags. -/
theorem replay_invariant (s : Editor) (hr : ReachableNoUndoDelete s) :
    s.text = replay s.undoStack ∧ ∀ a ∈ s.undoStack, a.1 = "insert" ∨ a.1 = "delete" := by
  induction hr with
  | empty => exact ⟨rfl, fun a ha => absurd ha (List.not_mem_nil a)⟩
  | insert s x _ ih =>
    obtain ⟨ih1, ih2⟩ := ih
    rw [insert_fst]
    refine ⟨?_, ?_⟩
    · show s.text ++ _ = replay (Action.Insert _ :: s.undoStack)
      rw [replay_cons, Action.Insert, applyAction_insert, ← ih1]
    · intro a ha
      rcases List.mem_cons.mp ha with h | h
      · left; rw [h]; rfl
      · exact ih2 a h
  | deleteText s t _ ih =>
    obtain ⟨ih1, ih2⟩ := ih
    by_cases hocc : t <:+: s.text
    · rw [deleteText_of_occurs s t hocc]
      refine ⟨?_, ?_⟩
      · show eraseRemove s.text t = replay (("delete", t) :: s.undoStack)
        rw [replay_cons, applyAction_delete, ← ih1]
      · intro a ha
        rcases List.mem_cons.mp ha with h | h
        · right; rw [h]
        · exact ih2 a h
    · rw [deleteText_of_absent s t hocc]
      exact ⟨ih1, ih2⟩
  | undo s s' o _ htop hlen hundo ih =>
    obtain ⟨ih1, ih2⟩ := ih
    cases hstack : s.undoStack with
    | nil =>
      unfold undo at hundo
      rw [hstack] at hundo
      simp only [Except.ok.injEq, Prod.mk.injEq] at hundo
      rw [← hundo.1]
      exact ⟨ih1, ih2⟩
    | cons a rest =>
      have hrest : ∀ b ∈ rest, b.1 = "insert" ∨ b.1 = "delete" := fun b hb =>
        ih2 b (by rw [hstack]; exact List.mem_cons_of_mem a hb)
      have hnd : a.1 ≠ "delete" := htop a (by rw [hstack]; rfl)
      have hins : a.1 = "insert" := by
        rcases ih2 a (by rw [hstack]; exact List.mem_cons_self a rest) with h | h
        · exact h
        · exact absurd h hnd
      obtain ⟨tag, p⟩ := a
      simp only at hins
      subst hins
      have htext : s.text = replay rest ++ p := by
        rw [ih1, hstack, replay_cons, applyAction_insert]
      have hl : (replay rest).length < SIZE_MOD := by
        rw [htext, List.length_append] at hlen
        omega
      rw [undo_insert_top s p rest (replay rest) hstack htext hl] at hundo
      simp only [Except.ok.injEq, Prod.mk.injEq] at hundo
      rw [← hundo.1]
      exact ⟨rfl, hrest⟩
  | redo s _ ih =>
    obtain ⟨ih1, ih2⟩ := ih
    unfold redo
    cases hstack : s.redoStack with
    | nil => exact ⟨ih1, ih2⟩
    | cons a rest =>
      obtain ⟨tag, p⟩ := a
      by_cases h1 : tag = "insert"
      · subst h1
        simp only [if_true]
        refine ⟨?_, ?_⟩
        · show s.text ++ p = replay (("insert", p) :: s.undoStack)
          rw [replay_cons, applyAction_insert, ← ih1]
        · intro a ha
          rcases List.mem_cons.mp ha with h | h
          · left; rw [h]
          · exact ih2 a h
      · by_cases h2 : tag = "delete"
        · subst h2
          simp only [if_neg h1, if_true]
          refine ⟨?_, ?_⟩
          · show eraseRemove s.text p = replay (("delete", p) :: s.undoStack)
            rw [replay_cons, applyAction_delete, ← ih1]
          · intro a ha
            rcases List.mem_cons.mp ha with h | h
            · right; rw [h]
            · exact ih2 a h
        · simp only [if_neg h1, if_neg h2]
          exact ⟨ih1, ih2⟩

theorem deleteText_ab_a :
    (deleteText (insert Editor.empty "ab".toList).1 "a".toList).1 =
      ⟨"b".toList, [Action.Delete "a".toList, Action.Insert "ab".toList], [], []⟩ := by
  rw [deleteText_of_occurs _ _ (by decide)]
  decide

theorem undo_b_delete_a :
    undo ⟨"b".toList, [Action.Delete "a".toList, Action.Insert "ab".toList], [], []⟩ =
      .ok (⟨"ba".toList, [Action.Insert "ab".toList], [Action.Delete "a".toList], []⟩,
           some (.UndoDelete "ba".toList)) := rfl

theorem reachable_ba :
    Reachable ⟨"ba".toList, [Action.Insert "ab".toList], [Action.Delete "a".toList], []⟩ :=
  Reachable.undo _ _ _
    (deleteText_ab_a ▸ Reachable.deleteText _ "a".toList
      (Reachable.insert _ "ab".toList Reachable.empty))
    undo_b_delete_a

theorem reachableNoUndoDelete_b :
    ReachableNoUndoDelete
      ⟨"b".toList, [Action.Delete "a".toList, Action.Insert "ab".toList], [], []⟩ :=
  deleteText_ab_a ▸ ReachableNoUndoDelete.deleteText _ "a".toList
    (ReachableNoUndoDelete.insert _ "ab".toList ReachableNoUndoDelete.empty)

theorem deleteText_aa_a :
    (deleteText (insert Editor.empty "aa".toList).1 "a".toList).1 =
      ⟨[], [Action.Delete "a".toList, Action.Insert "aa".toList], [], []⟩ := by
  rw [deleteText_of_occurs _ _ (by decide)]
  decide

theorem reachable_a :
    Reachable ⟨"a".toList, [Action.Insert "aa".toList], [Action.Delete "a".toList], []⟩ :=
  Reachable.undo ⟨[], [Action.Delete "a".toList, Action.Insert "aa".toList], [], []⟩ _
    (some (.UndoDelete "a".toList))
    (deleteText_aa_a ▸ Reachable.deleteText _ "a".toList
      (Reachable.insert _ "aa".toList Reachable.empty))
    rfl

theorem undo_delete_top (s : Editor) (t : List Char) (rest : List Action)
    (hstack : s.undoStack = ("delete", t) :: rest) :
    undo s = .ok (⟨s.text ++ t, rest, ("delete", t) :: s.redoStack, s.currentFile⟩,
                  some (.UndoDelete (s.text ++ t))) := by
  unfold undo
  rw [hstack]
  simp

/-- Whenever `undo` returns on a non-empty undo stack whose top carries one of the two tags,
it has moved exactly the top action to the redo stack. -/
theorem undo_moves_top (s s' : Editor) (o : Option Output) (a : Action) (rest : List Action)
    (hstack : s.undoStack = a :: rest) (htag : a.1 = "insert" ∨ a.1 = "delete")
    (hundo : undo s = .ok (s', o)) :
    s'.undoStack = rest ∧ s'.redoStack = a :: s.redoStack := by
  obtain ⟨tag, p⟩ := a
  rcases htag with h | h
  · simp only at h
    subst h
    unfold undo at hundo
    rw [hstack] at hundo
    simp only [if_true] at hundo
    split at hundo
    · exact absurd hundo (by simp)
    · simp only [Except.ok.injEq, Prod.mk.injEq] at hundo
      rw [← hundo.1]
      exact ⟨rfl, rfl⟩
  · simp only at h
    subst h
    rw [undo_delete_top s p rest hstack] at hundo
    simp only [Except.ok.injEq, Prod.mk.injEq] at hundo
    rw [← hundo.1]
    exact ⟨rfl, rfl⟩

/-- On a non-empty redo stack whose top carries one of the two tags, `redo` moves exactly the
top action to the undo stack. -/
theorem redo_moves_top (s : Editor) (a : Action) (rest : List Action)
    (hstack : s.redoStack = a :: rest) (htag : a.1 = "insert" ∨ a.1 = "delete") :
    (redo s).1.redoStack = rest ∧ (redo s).1.undoStack = a :: s.undoStack := by
  obtain ⟨tag, p⟩ := a
  unfold redo
  rw [hstack]
  rcases htag with h | h
  · simp only at h
    subst h
    exact ⟨rfl, rfl⟩
  · simp only at h
    subst h
    exact ⟨rfl, rfl⟩

theorem occursAt_iff (text target : List Char) (i : Nat) :
    occursAt text target i ↔ i ≤ text.length ∧ target.isPrefixOf (text.drop i) = true := by
  unfold occursAt
  rw [ List.isPrefixOf_iff_prefix, List.prefix_iff_eq_take]
  constructor
  · rintro ⟨h1, h2⟩
    exact ⟨by omega, h2.symm⟩
  · rintro ⟨h1, h2⟩
    refine ⟨?_, h2.symm⟩
    have h3 := congrArg List.length h2
    rw [List.length_take, List.length_drop] at h3
    omega

theorem find_some_spec {text target : List Char} {k p : Nat}
    (h : find text target k = some p) :
    k ≤ p ∧ occursAt text target p ∧ ∀ i, k ≤ i → i < p → ¬ occursAt text target i := by
  unfold find at h
  rw [List.find?_range_eq_some] at h
  obtain ⟨h1, h2, h3⟩ := h
  simp only [Bool.and_eq_true, decide_eq_true_eq] at h1
  rw [List.mem_range] at h2
  refine ⟨h1.1, (occursAt_iff text target p).mpr ⟨by omega, h1.2⟩, ?_⟩
  intro i hki hip hocc
  have h4 := h3 i hip
  rw [occursAt_iff] at hocc
  simp [hki, hocc.2] at h4

theorem find_none_spec {text target : List Char} {k : Nat}
    (h : find text target k = none) :
    ∀ i, k ≤ i → ¬ occursAt text target i := by
  unfold find at h
  rw [List.find?_eq_none] at h
  intro i hki hocc
  rw [occursAt_iff] at hocc
  apply h i (by rw [List.mem_range]; omega)
  simp [hki, hocc.2]

/-- The loop of `findOccurrences` keeps: the vector built so far holds, in increasing order,
exactly the occurrences below the position the search last started from. -/
theorem loop_spec (text target : List Char) (pos : Option Nat) (acc : List Nat) :
    (∃ k, pos = find text target k ∧ acc.Pairwise (fun a b => a < b) ∧
      ∀ i, i ∈ acc ↔ (occursAt text target i ∧ i < k)) →
    (findOccurrences.loop text target pos acc).Pairwise (fun a b => a < b) ∧
      ∀ i, i ∈ findOccurrences.loop text target pos acc ↔ occursAt text target i := by
  induction pos, acc using findOccurrences.loop.induct text target with
  | case1 acc =>
    rintro ⟨k, hk, hsorted, hmem⟩
    rw [loop_none]
    refine ⟨hsorted, fun i => ?_⟩
    rw [hmem]
    constructor
    · exact fun h => h.1
    · intro hocc
      refine ⟨hocc, ?_⟩
      by_contra hlt
      exact find_none_spec hk.symm i (by omega) hocc
  | case2 acc p ih =>
    rintro ⟨k, hk, hsorted, hmem⟩
    obtain ⟨hkp, hoccp, hmin⟩ := find_some_spec hk.symm
    rw [loop_some]
    apply ih
    refine ⟨p + 1, rfl, ?_, ?_⟩
    · rw [List.pairwise_append]
      refine ⟨hsorted, List.pairwise_singleton _ _, ?_⟩
      intro a ha b hb
      rw [List.mem_singleton] at hb
      have := ((hmem a).mp ha).2
      omega
    · intro i
      rw [List.mem_append, List.mem_singleton, hmem]
      constructor
      · rintro (⟨h1, h2⟩ | h)
        · exact ⟨h1, by omega⟩
        · subst h
          exact ⟨hoccp, by omega⟩
      · rintro ⟨h1, h2⟩
        by_cases hik : i < k
        · exact Or.inl ⟨h1, hik⟩
        · right
          by_contra hne
          exact hmin i (by omega) (by omega) h1

theorem insertOnly_invariant (s : Editor) (hr : ReachableInsertOnly s) :
    s.text = (payloads s.undoStack).flatten ∧ (∀ a ∈ s.undoStack, a.1 = "insert") ∧
      (∀ a ∈ s.redoStack, a.1 = "insert") := by
  induction hr with
  | empty => exact ⟨rfl, fun a ha => absurd ha (List.not_mem_nil a),
      fun a ha => absurd ha (List.not_mem_nil a)⟩
  | insert s x _ ih =>
    obtain ⟨ih1, ih2, _⟩ := ih
    rw [insert_fst]
    refine ⟨?_, ?_, fun a ha => absurd ha (List.not_mem_nil a)⟩
    · simp only [payloads, Action.Insert, List.reverse_cons, List.map_append, List.map_cons,
        List.map_nil, List.flatten_concat]
      rw [ih1]
      rfl
    · intro a ha
      rcases List.mem_cons.mp ha with h | h
      · rw [h]; rfl
      · exact ih2 a h
  | undo s s' o _ hlen hundo ih =>
    obtain ⟨ih1, ih2, ih3⟩ := ih
    cases hstack : s.undoStack with
    | nil =>
      unfold undo at hundo
      rw [hstack] at hundo
      simp only [Except.ok.injEq, Prod.mk.injEq] at hundo
      rw [← hundo.1]
      exact ⟨ih1, ih2, ih3⟩
    | cons a rest =>
      obtain ⟨tag, p⟩ := a
      have hins : tag = "insert" := ih2 (tag, p) (by rw [hstack]; exact List.mem_cons_self _ _)
      subst hins
      have htext : s.text = (payloads rest).flatten ++ p := by
        rw [ih1, hstack]
        simp [payloads]
      have hl : ((payloads rest).flatten).length < SIZE_MOD := by
        rw [htext, List.length_append] at hlen
        omega
      rw [undo_insert_top s p rest _ hstack htext hl] at hundo
      simp only [Except.ok.injEq, Prod.mk.injEq] at hundo
      rw [← hundo.1]
      refine ⟨rfl, fun b hb => ih2 b (by rw [hstack]; exact List.mem_cons_of_mem _ hb), ?_⟩
      intro b hb
      rcases List.mem_cons.mp hb with h | h
      · rw [h]
      · exact ih3 b h
  | redo s _ ih =>
    obtain ⟨ih1, ih2, ih3⟩ := ih
    unfold redo
    cases hstack : s.redoStack with
    | nil => exact ⟨ih1, ih2, ih3⟩
    | cons a rest =>
      obtain ⟨tag, p⟩ := a
      have hins : tag = "insert" := ih3 (tag, p) (by rw [hstack]; exact List.mem_cons_self _ _)
      subst hins
      simp only [if_true]
      refine ⟨?_, ?_, fun b hb => ih3 b (by rw [hstack]; exact List.mem_cons_of_mem _ hb)⟩
      · simp only [payloads, List.reverse_cons, List.map_append, List.map_cons,
          List.map_nil, List.flatten_concat]
        rw [ih1]
        rfl
      · intro b hb
        rcases List.mem_cons.mp hb with h | h
        · rw [h]
        · exact ih2 b h

/-- Overlapping occurrences are all reported: `"aa"` is found in `"aaa"` at 0 and at 1. -/
theorem findOccurrences_aaa : findOccurrences "aaa".toList "aa".toList = [0, 1] := by
  have h0 : find "aaa".toList "aa".toList 0 = some 0 := by decide
  have h1 : find "aaa".toList "aa".toList (0 + 1) = some 1 := by decide
  have h2 : find "aaa".toList "aa".toList (1 + 1) = none := by decide
  unfold findOccurrences
  rw [h0, loop_some, h1, loop_some, h2, loop_none]
  rfl

/-! ## Claims -/

/-- C1: `insert(newText)` appends the payload (a space and `newText` on a non-empty buffer,
`newText` alone on an empty one) to the buffer, pushes `{Insert, payload}` on the undo stack
and empties the redo stack; the buffer grows by exactly the length of the payload. -/
theorem insert_spec (s : Editor) (newText : List Char) :
    (insert s newText).1 =
      { text := s.text ++ insertPayload s.text newText,
        undoStack := Action.Insert (insertPayload s.text newText) :: s.undoStack,
        redoStack := [],
        currentFile := s.currentFile } ∧
    (insert s newText).1.text.length = s.text.length + (insertPayload s.text newText).length := by
  rw [insert_fst]
  exact ⟨rfl, List.length_append _ _⟩

/-- C2: when `target` occurs in the buffer as a contiguous substring, `deleteText(target)`
pushes `{Delete, target}` on the undo stack, empties the redo stack, and keeps, in their
order, exactly the buffer characters that are not members of the character set of
`target`. -/
theorem deleteText_found (s : Editor) (target : List Char) (h : target <:+: s.text) :
    (deleteText s target).1 =
      { text := s.text.filter (fun c => decide (c ∉ target)),
        undoStack := Action.Delete target :: s.undoStack,
        redoStack := [],
        currentFile := s.currentFile } := by
  rw [deleteText_of_occurs s target h, eraseRemove_eq_filter]
  rfl

/-- Witness for C2: deleting `"lo"` from the buffer `"hello world"`. -/
theorem deleteText_found_witness :
    "lo".toList <:+: "hello world".toList ∧
    (deleteText { text := "hello world".toList, undoStack := [], redoStack := [],
                  currentFile := [] } "lo".toList).1 =
      { text := "he wrd".toList,
        undoStack := [Action.Delete "lo".toList],
        redoStack := [],
        currentFile := [] } :=
  ⟨by decide,
   (deleteText_found ⟨"hello world".toList, [], [], []⟩ "lo".toList (by decide)).trans
     (by decide)⟩

/-- C3: when `target` does not occur in the buffer as a contiguous substring,
`deleteText(target)` reports `TextNotFound` and returns the editor unchanged. -/
theorem deleteText_not_found (s : Editor) (target : List Char) (h : ¬ target <:+: s.text) :
    deleteText s target = (s, .TextNotFound target) :=
  deleteText_of_absent s target h

/-- Witness for C3: `delete("xyz")` on the empty editor leaves the buffer `""`. -/
theorem deleteText_not_found_witness :
    ¬ "xyz".toList <:+: Editor.empty.text ∧
    deleteText Editor.empty "xyz".toList = (Editor.empty, .TextNotFound "xyz".toList) ∧
    (deleteText Editor.empty "xyz".toList).1.text = [] :=
  have h := deleteText_not_found Editor.empty "xyz".toList (by decide)
  ⟨by decide, h, by rw [h]; rfl⟩

/-- C4: on a buffer whose length is a `size_t` value, `undo` right after `insert(x)`
succeeds, restores the buffer and the undo stack of the state before the insert, and leaves
the single Insert action on the redo stack. -/
theorem undo_insert (s : Editor) (x : List Char) (hlen : s.text.length < SIZE_MOD) :
    undo (insert s x).1 =
      .ok ({ text := s.text, undoStack := s.undoStack,
             redoStack := [Action.Insert (insertPayload s.text x)],
             currentFile := s.currentFile },
           some (.UndoInsert s.text)) := by
  rw [undo_insert_top (insert s x).1 (insertPayload s.text x) s.undoStack s.text
    (by rw [insert_fst]; rfl) (by rw [insert_fst]) hlen, insert_fst]
  rfl

/-- Witness for C4: `insert("world")` then `undo` on the buffer `"hello"`. -/
theorem undo_insert_witness :
    (5 : Nat) < SIZE_MOD ∧
    undo (insert { text := "hello".toList, undoStack := [Action.Insert "hello".toList],
                   redoStack := [], currentFile := [] } "world".toList).1 =
      .ok ({ text := "hello".toList, undoStack := [Action.Insert "hello".toList],
             redoStack := [Action.Insert " world".toList],
             currentFile := [] },
           some (.UndoInsert "hello".toList)) :=
  ⟨by decide,
   undo_insert ⟨"hello".toList, [Action.Insert "hello".toList], [], []⟩ "world".toList
     (by decide)⟩

/-- C6: after `insert` of any string, and after a `deleteText` whose target occurs in the
buffer, the redo stack is empty and an immediately following `redo` reports `NothingToRedo`
and changes nothing; in particular this holds for an `insert` that follows an `undo`. -/
theorem redo_after_mutation (s : Editor) :
    (∀ x : List Char, (insert s x).1.redoStack = [] ∧
      redo (insert s x).1 = ((insert s x).1, some .NothingToRedo)) ∧
    (∀ target : List Char, target <:+: s.text →
      (deleteText s target).1.redoStack = [] ∧
      redo (deleteText s target).1 = ((deleteText s target).1, some .NothingToRedo)) ∧
    (∀ (s0 : Editor) (o : Option Output) (x : List Char), undo s0 = .ok (s, o) →
      redo (insert s x).1 = ((insert s x).1, some .NothingToRedo)) := by
  have hins : ∀ x : List Char, (insert s x).1.redoStack = [] ∧
      redo (insert s x).1 = ((insert s x).1, some .NothingToRedo) := by
    intro x
    have h : (insert s x).1.redoStack = [] := by rw [insert_fst]
    refine ⟨h, ?_⟩
    unfold redo
    rw [h]
  refine ⟨hins, ?_, fun _ _ x _ => (hins x).2⟩
  intro target hocc
  have h : (deleteText s target).1.redoStack = [] := by rw [deleteText_of_occurs s target hocc]
  refine ⟨h, ?_⟩
  unfold redo
  rw [h]

/-- Witness for C6: from `"hello world"` with two recorded inserts, `undo` and then
`insert("there")`, respectively `delete("lo")`, leave nothing to redo. -/
theorem redo_after_mutation_witness :
    undo ⟨"hello world".toList, [Action.Insert " world".toList, Action.Insert "hello".toList],
        [], []⟩ =
      .ok (⟨"hello".toList, [Action.Insert "hello".toList], [Action.Insert " world".toList],
            []⟩, some (.UndoInsert "hello".toList)) ∧
    "lo".toList <:+: "hello".toList ∧
    (redo (insert ⟨"hello".toList, [Action.Insert "hello".toList],
        [Action.Insert " world".toList], []⟩ "there".toList).1).2 = some .NothingToRedo ∧
    (redo (deleteText ⟨"hello".toList, [Action.Insert "hello".toList],
        [Action.Insert " world".toList], []⟩ "lo".toList).1).2 = some .NothingToRedo :=
  have h := redo_after_mutation ⟨"hello".toList, [Action.Insert "hello".toList],
    [Action.Insert " world".toList], []⟩
  ⟨rfl, by decide,
   by rw [h.2.2 ⟨"hello world".toList,
        [Action.Insert " world".toList, Action.Insert "hello".toList], [], []⟩
        (some (.UndoInsert "hello".toList)) "there".toList rfl],
   by rw [(h.2.1 "lo".toList (by decide)).2]⟩

/-- C7: `undo` on an empty undo stack reports `NothingToUndo` and returns the state
unchanged; `redo` on an empty redo stack reports `NothingToRedo` and returns the state
unchanged. -/
theorem undo_redo_nothing :
    (∀ s : Editor, s.undoStack = [] → undo s = .ok (s, some .NothingToUndo)) ∧
    (∀ s : Editor, s.redoStack = [] → redo s = (s, some .NothingToRedo)) := by
  constructor
  · intro s h
    unfold undo
    rw [h]
  · intro s h
    unfold redo
    rw [h]

/-- Witness for C7: the editor holding `"hello"` with both stacks empty. -/
theorem undo_redo_nothing_witness :
    (⟨"hello".toList, [], [], []⟩ : Editor).undoStack = [] ∧
    (⟨"hello".toList, [], [], []⟩ : Editor).redoStack = [] ∧
    undo ⟨"hello".toList, [], [], []⟩ = .ok (⟨"hello".toList, [], [], []⟩, some .NothingToUndo) ∧
    redo ⟨"hello".toList, [], [], []⟩ = (⟨"hello".toList, [], [], []⟩, some .NothingToRedo) :=
  ⟨rfl, rfl, undo_redo_nothing.1 ⟨"hello".toList, [], [], []⟩ rfl,
   undo_redo_nothing.2 ⟨"hello".toList, [], [], []⟩ rfl⟩

/-- C10: from the empty editor, `insert("hello")`, `insert("world")`, `undo`, `undo`, `redo`
produce the buffers `"hello"`, `"hello world"`, `"hello"`, `""`, `"hello"`. -/
theorem scenario_hello_world :
    ∃ s1 s2 s3 s4 s5 : Editor, ∃ o3 o4 : Option Output,
      s1 = (insert Editor.empty "hello".toList).1 ∧ s1.text = "hello".toList ∧
      s2 = (insert s1 "world".toList).1 ∧ s2.text = "hello world".toList ∧
      undo s2 = .ok (s3, o3) ∧ s3.text = "hello".toList ∧
      undo s3 = .ok (s4, o4) ∧ s4.text = "".toList ∧
      s5 = (redo s4).1 ∧ s5.text = "hello".toList :=
  ⟨⟨"hello".toList, [Action.Insert "hello".toList], [], []⟩,
   ⟨"hello world".toList, [Action.Insert " world".toList, Action.Insert "hello".toList], [], []⟩,
   ⟨"hello".toList, [Action.Insert "hello".toList], [Action.Insert " world".toList], []⟩,
   ⟨[], [], [Action.Insert "hello".toList, Action.Insert " world".toList], []⟩,
   ⟨"hello".toList, [Action.Insert "hello".toList], [Action.Insert " world".toList], []⟩,
   some (.UndoInsert "hello".toList), some (.UndoInsert []),
   by decide, by decide, by decide, by decide, rfl, by decide, rfl, by decide,
   by decide, by decide⟩

/-- C9: after `insert(x1)`, ..., `insert(xn)` from the empty editor the buffer is the
concatenation of the payloads recorded on the undo stack, bottom to top; when every `xi` is
non-empty it is `x1`, ..., `xn` joined by single spaces. -/
theorem insertAll_text (xs : List (List Char)) :
    (insertAll xs).text = (payloads (insertAll xs).undoStack).flatten ∧
    (insertAll xs).undoStack.length = xs.length ∧
    ((∀ x ∈ xs, x ≠ []) → (insertAll xs).text = List.intercalate [' '] xs) := by
  refine ⟨insertAll_payloads xs, ?_, fun h => (insertAll_intercalate xs h).1⟩
  induction xs using List.reverseRecOn with
  | nil => rfl
  | append_singleton xs x ih =>
    rw [insertAll_concat, insert_fst]
    simp [ih]

/-- Witness for C9: the inserts `"ab"`, `"c"`, `"de"` give the buffer `"ab c de"`. -/
theorem insertAll_text_witness :
    (∀ x ∈ ["ab".toList, "c".toList, "de".toList], x ≠ []) ∧
    (insertAll ["ab".toList, "c".toList, "de".toList]).text = "ab c de".toList ∧
    payloads (insertAll ["ab".toList, "c".toList, "de".toList]).undoStack
      = ["ab".toList, " c".toList, " de".toList] :=
  ⟨by decide,
   ((insertAll_text ["ab".toList, "c".toList, "de".toList]).2.2 (by decide)).trans (by decide),
   by decide⟩

/-- C5, as stated, fails: after `insert("ab")`, `delete("a")`, `undo` the editor holds
`"ba"` with `{Insert, "ab"}` on top of the undo stack; `undo` then gives `""` and `redo`
gives `"ab"`, not `"ba"`. -/
theorem redo_undo_counterexample :
    ∃ s s' : Editor, ∃ o : Option Output,
      s = ⟨"ba".toList, [Action.Insert "ab".toList], [Action.Delete "a".toList], []⟩ ∧
      Reachable s ∧ s.undoStack ≠ [] ∧ undo s = .ok (s', o) ∧
      (redo s').1.text = "ab".toList ∧ (redo s').1.text ≠ s.text :=
  ⟨_, ⟨[], [], [Action.Insert "ab".toList, Action.Delete "a".toList], []⟩,
   some (.UndoInsert []), rfl, reachable_ba, by decide, rfl, by decide, by decide⟩

/-- C5, amended: in every state reached from the empty editor without undoing a Delete
action, with a non-empty undo stack and a buffer length that is a `size_t` value, `undo`
succeeds and an immediately following `redo` restores the state, in particular the buffer. -/
theorem redo_undo (s : Editor) (hr : ReachableNoUndoDelete s) (hne : s.undoStack ≠ [])
    (hlen : s.text.length < SIZE_MOD) :
    ∃ s' : Editor, ∃ o : Option Output,
      undo s = .ok (s', o) ∧ (redo s').1 = s ∧ (redo s').1.text = s.text := by
  obtain ⟨h1, h2⟩ := replay_invariant s hr
  cases hstack : s.undoStack with
  | nil => exact absurd hstack hne
  | cons a rest =>
    obtain ⟨tag, p⟩ := a
    rcases h2 (tag, p) (by rw [hstack]; exact List.mem_cons_self _ rest) with h | h
    · simp only at h
      subst h
      have htext : s.text = replay rest ++ p := by
        rw [h1, hstack, replay_cons, applyAction_insert]
      have hl : (replay rest).length < SIZE_MOD := by
        rw [htext, List.length_append] at hlen
        omega
      refine ⟨_, _, undo_insert_top s p rest (replay rest) hstack htext hl, ?_⟩
      have hs : (redo ⟨replay rest, rest, ("insert", p) :: s.redoStack, s.currentFile⟩).1
          = s := by
        obtain ⟨t, u, r, f⟩ := s
        simp only at hstack htext
        simp [redo, hstack, htext]
      exact ⟨hs, by rw [hs]⟩
    · simp only at h
      subst h
      have htext : s.text = eraseRemove (replay rest) p := by
        rw [h1, hstack, replay_cons, applyAction_delete]
      have hu : undo s = .ok (⟨s.text ++ p, rest, ("delete", p) :: s.redoStack, s.currentFile⟩,
          some (.UndoDelete (s.text ++ p))) := by
        unfold undo
        rw [hstack]
        simp
      refine ⟨_, _, hu, ?_⟩
      have hs : (redo ⟨s.text ++ p, rest, ("delete", p) :: s.redoStack, s.currentFile⟩).1
          = s := by
        have hfix : eraseRemove (s.text ++ p) p = s.text := by
          rw [eraseRemove_append_self, htext, eraseRemove_idem]
        obtain ⟨t, u, r, f⟩ := s
        simp only at hstack hfix
        simp [redo, hstack, hfix]
      exact ⟨hs, by rw [hs]⟩

/-- Witness for C5, amended: the state after `insert("ab")`, `delete("a")`. -/
theorem redo_undo_witness :
    (⟨"b".toList, [Action.Delete "a".toList, Action.Insert "ab".toList], [], []⟩ :
      Editor).undoStack ≠ [] ∧
    ("b".toList).length < SIZE_MOD ∧
    ∃ s' : Editor, ∃ o : Option Output,
      undo ⟨"b".toList, [Action.Delete "a".toList, Action.Insert "ab".toList], [], []⟩
        = .ok (s', o) ∧
      (redo s').1 = ⟨"b".toList, [Action.Delete "a".toList, Action.Insert "ab".toList], [], []⟩ ∧
      (redo s').1.text = "b".toList :=
  ⟨by decide, by decide,
   redo_undo ⟨"b".toList, [Action.Delete "a".toList, Action.Insert "ab".toList], [], []⟩
     reachableNoUndoDelete_b (by decide) (by decide)⟩

/-- C8, as stated, fails: after `insert("ab")`, `delete("a")`, `undo` the buffer is `"ba"`
while the undo stack holds only `{Insert, "ab"}`, whose replay is `"ab"`. -/
theorem replay_counterexample :
    ∃ s : Editor,
      s = ⟨"ba".toList, [Action.Insert "ab".toList], [Action.Delete "a".toList], []⟩ ∧
      Reachable s ∧ replay s.undoStack = "ab".toList ∧ s.text ≠ replay s.undoStack :=
  ⟨_, rfl, reachable_ba, by decide, by decide⟩

/-- C8, amended: in every state reached from the empty editor by `insert`, `deleteText`,
`redo` and calls of `undo` that do not pop a Delete action (made while the buffer length is
a `size_t` value), the buffer equals the replay of the undo stack, bottom to top, from the
empty string. -/
theorem text_eq_replay (s : Editor) (hr : ReachableNoUndoDelete s) :
    s.text = replay s.undoStack :=
  (replay_invariant s hr).1

/-- Witness for C8, amended: the state after `insert("ab")`, `delete("a")`. -/
theorem text_eq_replay_witness :
    ReachableNoUndoDelete
      ⟨"b".toList, [Action.Delete "a".toList, Action.Insert "ab".toList], [], []⟩ ∧
    "b".toList = replay [Action.Delete "a".toList, Action.Insert "ab".toList] :=
  ⟨reachableNoUndoDelete_b,
   text_eq_replay ⟨"b".toList, [Action.Delete "a".toList, Action.Insert "ab".toList], [], []⟩
     reachableNoUndoDelete_b⟩

/-- C11 fails on the code: after `insert("aa")`, `delete("a")`, `undo` the editor holds `"a"`
under `{Insert, "aa"}`; the payload is longer than the buffer, the erase position wraps
around to `2 ^ 64 - 1`, and `undo` leaves through `std::out_of_range`. -/
theorem undo_insert_underflow :
    ∃ s : Editor,
      s = ⟨"a".toList, [Action.Insert "aa".toList], [Action.Delete "a".toList], []⟩ ∧
      Reachable s ∧
      s.undoStack.head? = some (Action.Insert "aa".toList) ∧
      s.text.length < ("aa".toList).length ∧
      sizeSub s.text.length ("aa".toList).length = 2 ^ 64 - 1 ∧
      undo s = .error .out_of_range :=
  ⟨_, rfl, reachable_a, rfl, by decide, by decide, rfl⟩

/-- C12 fails on the code at the same state: the undo stack is non-empty, yet `undo` pops
`{Insert, "aa"}` and then throws, so no state follows in which that action sits on the redo
stack. -/
theorem undo_pops_then_throws :
    ∃ s : Editor,
      s = ⟨"a".toList, [Action.Insert "aa".toList], [Action.Delete "a".toList], []⟩ ∧
      Reachable s ∧ s.undoStack ≠ [] ∧
      ¬ ∃ s' : Editor, ∃ o : Option Output, undo s = .ok (s', o) :=
  ⟨_, rfl, reachable_a, by decide, by
    rintro ⟨s', o, h⟩
    have h2 : undo ⟨"a".toList, [Action.Insert "aa".toList], [Action.Delete "a".toList], []⟩
        = .error .out_of_range := rfl
    rw [h2] at h
    exact absurd h (by simp)⟩

/-- C13: `createFile(p)` on an existing path reports `FileAlreadyExists` and changes neither
the editor nor the files; on an absent path it yields the editor with empty buffer, empty
stacks and current path `p`. -/
theorem createFile_spec (s : Editor) (fs : FileSystem) (p : List Char) :
    ((fs p).isSome = true → createFile s fs p = (s, fs, .FileAlreadyExists p)) ∧
    (fs p = none →
      (createFile s fs p).1 = ⟨[], [], [], p⟩ ∧ (createFile s fs p).2.2 = .FileCreated p) := by
  constructor
  · intro h
    simp [createFile, h]
  · intro h
    simp [createFile, h]

/-- Witness for C13: `create("a.txt")` with and without a file `a.txt`. -/
theorem createFile_spec_witness :
    (createFile ⟨"hello".toList, [Action.Insert "hello".toList], [], "b.txt".toList⟩
        (fun q => if q = "a.txt".toList then some "x".toList else none) "a.txt".toList).1
      = ⟨"hello".toList, [Action.Insert "hello".toList], [], "b.txt".toList⟩ ∧
    (createFile ⟨"hello".toList, [Action.Insert "hello".toList], [], "b.txt".toList⟩
        (fun _ => none) "a.txt".toList).1
      = ⟨[], [], [], "a.txt".toList⟩ :=
  ⟨by rw [(createFile_spec ⟨"hello".toList, [Action.Insert "hello".toList], [], "b.txt".toList⟩
        (fun q => if q = "a.txt".toList then some "x".toList else none) "a.txt".toList).1
        (by decide)],
   ((createFile_spec ⟨"hello".toList, [Action.Insert "hello".toList], [], "b.txt".toList⟩
        (fun _ => none) "a.txt".toList).2 rfl).1⟩

/-- C14: `loadFile` of an existing file with content `c` sets the buffer to `c` and the
current path to the file, and leaves both stacks as they were; hence after `insert("ab")` and
the load of an empty file the top of the undo stack is `{Insert, "ab"}` over an empty
buffer, and `undo` asks `erase` for a position beyond the buffer. -/
theorem loadFile_keeps_history :
    (∀ (s : Editor) (fs : FileSystem) (p c : List Char), fs p = some c →
      loadFile s fs p = (⟨c, s.undoStack, s.redoStack, p⟩, .Loaded p c)) ∧
    (∃ (s : Editor) (fs : FileSystem) (p c payload : List Char) (rest : List Action),
      Reachable s ∧ fs p = some c ∧
      (loadFile s fs p).1.undoStack = Action.Insert payload :: rest ∧
      (loadFile s fs p).1.text.length < payload.length ∧
      (loadFile s fs p).1.text.length <
        sizeSub (loadFile s fs p).1.text.length payload.length ∧
      undo (loadFile s fs p).1 = .error .out_of_range) := by
  constructor
  · intro s fs p c h
    simp [loadFile, h]
  · exact ⟨(insert Editor.empty "ab".toList).1, fun _ => some [], "f".toList, [], "ab".toList,
      [], Reachable.insert _ _ Reachable.empty, rfl, rfl, by decide, by decide, rfl⟩

/-- Witness for C14: loading `"xyz"` into an editor that has recorded one insert. -/
theorem loadFile_keeps_history_witness :
    (loadFile ⟨"hello".toList, [Action.Insert "hello".toList], [], []⟩
        (fun _ => some "xyz".toList) "f".toList).1
      = ⟨"xyz".toList, [Action.Insert "hello".toList], [], "f".toList⟩ :=
  congrArg Prod.fst
    (loadFile_keeps_history.1 ⟨"hello".toList, [Action.Insert "hello".toList], [], []⟩
      (fun _ => some "xyz".toList) "f".toList "xyz".toList rfl)

/-- C15, as stated, fails: `delete("")` on the editor holding `"ab"` with one recorded and
one undone insert pushes `{Delete, ""}` on the undo stack and empties the redo stack. -/
theorem deleteText_empty_counterexample :
    (deleteText ⟨"ab".toList, [Action.Insert "ab".toList], [Action.Insert " c".toList], []⟩
        []).1
      = ⟨"ab".toList, [Action.Delete [], Action.Insert "ab".toList], [], []⟩ ∧
    (deleteText ⟨"ab".toList, [Action.Insert "ab".toList], [Action.Insert " c".toList], []⟩
        []).1.undoStack ≠ [Action.Insert "ab".toList] ∧
    (deleteText ⟨"ab".toList, [Action.Insert "ab".toList], [Action.Insert " c".toList], []⟩
        []).1.redoStack ≠ [Action.Insert " c".toList] := by
  rw [deleteText_of_occurs _ _ (by decide)]
  decide

/-- C15, amended: `delete("")` leaves the buffer as it is, pushes `{Delete, ""}` on the undo
stack and empties the redo stack. -/
theorem deleteText_empty (s : Editor) :
    deleteText s [] = (⟨s.text, Action.Delete [] :: s.undoStack, [], s.currentFile⟩,
                       .Deleted [] s.text) := by
  rw [deleteText_of_occurs s [] List.nil_infix]
  have h : eraseRemove s.text [] = s.text := by
    rw [eraseRemove_eq_filter, List.filter_eq_self]
    intro c _
    simp
  rw [h]
  rfl

/-- C16: when the top of the undo stack is `{Delete, t}`, `undo` appends `t` to the end of
the buffer (and moves the action to the redo stack); it does not invert `deleteText`:
deleting `"a"` from `"ab"` and undoing gives `"ba"`. -/
theorem undo_delete_appends :
    (∀ (s : Editor) (t : List Char) (rest : List Action),
      s.undoStack = Action.Delete t :: rest →
      undo s = .ok (⟨s.text ++ t, rest, Action.Delete t :: s.redoStack, s.currentFile⟩,
                    some (.UndoDelete (s.text ++ t)))) ∧
    (∃ (s s' : Editor) (target : List Char) (o : Option Output),
      target <:+: s.text ∧ undo (deleteText s target).1 = .ok (s', o) ∧
      s.text = "ab".toList ∧ s'.text = "ba".toList ∧ s'.text ≠ s.text) := by
  constructor
  · intro s t rest h
    exact undo_delete_top s t rest h
  · refine ⟨(insert Editor.empty "ab".toList).1,
      ⟨"ba".toList, [Action.Insert "ab".toList], [Action.Delete "a".toList], []⟩,
      "a".toList, some (.UndoDelete "ba".toList), by decide, ?_, rfl, rfl, by decide⟩
    rw [deleteText_ab_a]
    exact undo_b_delete_a

/-- Witness for C16: `undo` on the buffer `"he wrd"` under `{Delete, "lo"}`. -/
theorem undo_delete_appends_witness :
    undo ⟨"he wrd".toList, [Action.Delete "lo".toList], [], []⟩
      = .ok (⟨"he wrdlo".toList, [], [Action.Delete "lo".toList], []⟩,
             some (.UndoDelete "he wrdlo".toList)) :=
  undo_delete_appends.1 ⟨"he wrd".toList, [Action.Delete "lo".toList], [], []⟩ "lo".toList []
    rfl

/-- C18 fails on the code: for the bare line `save` (and likewise `create`, `load`, `insert`,
`delete`) the argument position lies beyond the end of the line, `substr` throws
`std::out_of_range`, and `saveFile` is never called; with a trailing blank, `save ` does call
`saveFile` with the empty path. -/
theorem mainStep_bare_keyword (s : Editor) (fs : FileSystem) :
    mainStep s fs "save".toList = .error .out_of_range ∧
    mainStep s fs "create".toList = .error .out_of_range ∧
    mainStep s fs "load".toList = .error .out_of_range ∧
    mainStep s fs "insert".toList = .error .out_of_range ∧
    mainStep s fs "delete".toList = .error .out_of_range ∧
    mainStep s fs "save ".toList
      = .ok (.next (saveFile s fs []).1 (saveFile s fs []).2.1 (some (saveFile s fs []).2.2)) :=
  ⟨rfl, rfl, rfl, rfl, rfl, rfl⟩

/-- C17: `findOccurrences` (a total function: its loop is defined by well-founded recursion)
returns, in strictly increasing order, exactly the indices at which `target` occurs in the
buffer as a contiguous substring, overlapping occurrences included; the result is non-empty
if and only if `target` is a substring of the buffer. -/
theorem findOccurrences_spec (text target : List Char) :
    (findOccurrences text target).Pairwise (fun a b => a < b) ∧
    (∀ i, i ∈ findOccurrences text target ↔ occursAt text target i) ∧
    (findOccurrences text target ≠ [] ↔ target <:+: text) := by
  have h := loop_spec text target (find text target 0) []
    ⟨0, rfl, List.Pairwise.nil, fun i => by simp⟩
  refine ⟨h.1, h.2, ?_⟩
  rw [Ne, ← List.isEmpty_iff, findOccurrences_isEmpty, not_not]

/-- C19: for a non-empty `target` that occurs in the buffer, the buffer after
`deleteText(target)` holds no character of `target`, `target` no longer occurs in it, and a
repeated `deleteText(target)` reports `TextNotFound` and changes nothing. -/
theorem deleteText_twice (s : Editor) (target : List Char) (hne : target ≠ [])
    (hocc : target <:+: s.text) :
    (∀ c ∈ (deleteText s target).1.text, c ∉ target) ∧
    ¬ target <:+: (deleteText s target).1.text ∧
    deleteText (deleteText s target).1 target
      = ((deleteText s target).1, .TextNotFound target) := by
  have h1 : ∀ c ∈ (deleteText s target).1.text, c ∉ target := by
    intro c hc
    rw [deleteText_of_occurs s target hocc] at hc
    simp only at hc
    rw [eraseRemove_eq_filter, List.mem_filter] at hc
    simpa using hc.2
  have h2 : ¬ target <:+: (deleteText s target).1.text := by
    intro hin
    obtain ⟨c, t, rfl⟩ := List.exists_cons_of_ne_nil hne
    exact h1 c (hin.subset (List.mem_cons_self c t)) (List.mem_cons_self c t)
  exact ⟨h1, h2, deleteText_of_absent _ target h2⟩

/-- Witness for C19: deleting `"lo"` from `"hello world"` twice. -/
theorem deleteText_twice_witness :
    "lo".toList ≠ [] ∧ "lo".toList <:+: "hello world".toList ∧
    ¬ "lo".toList <:+: (deleteText ⟨"hello world".toList, [], [], []⟩ "lo".toList).1.text ∧
    deleteText (deleteText ⟨"hello world".toList, [], [], []⟩ "lo".toList).1 "lo".toList
      = ((deleteText ⟨"hello world".toList, [], [], []⟩ "lo".toList).1,
         .TextNotFound "lo".toList) :=
  ⟨by decide, by decide,
   (deleteText_twice ⟨"hello world".toList, [], [], []⟩ "lo".toList (by decide)
     (by decide)).2⟩

/-- C20, as stated, fails: after `insert("a")` and `undo` the undo stack is empty, `undo`
changes nothing, and `redo` then re-applies the insert, so `redo(undo(s))` is not `s`. -/
theorem insertOnly_redo_undo_counterexample :
    ∃ s : Editor,
      s = ⟨[], [], [Action.Insert "a".toList], []⟩ ∧
      ReachableInsertOnly s ∧
      undo s = .ok (s, some .NothingToUndo) ∧
      (redo s).1 = ⟨"a".toList, [Action.Insert "a".toList], [], []⟩ ∧ (redo s).1 ≠ s :=
  ⟨_, rfl,
   ReachableInsertOnly.undo (insert Editor.empty "a".toList).1 _ (some (.UndoInsert []))
     (ReachableInsertOnly.insert _ _ ReachableInsertOnly.empty) (by decide) rfl,
   rfl, rfl, by decide⟩

/-- C20, amended: in every state reached from the empty editor by `insert`, `undo` and
`redo` alone, the buffer is the concatenation of the payloads on the undo stack, bottom to
top, every action on either stack is an Insert, the payload on top of the undo stack is no
longer than the buffer, and, when the undo stack is non-empty and the buffer length is a
`size_t` value, `undo` succeeds and `redo` right after it gives back the state. -/
theorem insertOnly_spec (s : Editor) (hr : ReachableInsertOnly s) :
    s.text = (payloads s.undoStack).flatten ∧
    (∀ a ∈ s.undoStack ++ s.redoStack, a.1 = "insert") ∧
    (∀ a ∈ s.undoStack.head?, a.2.length ≤ s.text.length) ∧
    (s.undoStack ≠ [] → s.text.length < SIZE_MOD →
      ∃ s' : Editor, ∃ o : Option Output, undo s = .ok (s', o) ∧ (redo s').1 = s) := by
  obtain ⟨h1, h2, h3⟩ := insertOnly_invariant s hr
  refine ⟨h1, ?_, ?_, ?_⟩
  · intro a ha
    rcases List.mem_append.mp ha with h | h
    · exact h2 a h
    · exact h3 a h
  · intro a ha
    cases hstack : s.undoStack with
    | nil => rw [hstack] at ha; exact absurd ha (by simp)
    | cons b rest =>
      rw [hstack] at ha h1
      simp only [List.head?_cons, Option.mem_def, Option.some.injEq] at ha
      subst ha
      rw [h1]
      simp [payloads]
  · intro hne hlen
    cases hstack : s.undoStack with
    | nil => exact absurd hstack hne
    | cons a rest =>
      obtain ⟨tag, p⟩ := a
      have hins : tag = "insert" := h2 (tag, p) (by rw [hstack]; exact List.mem_cons_self _ _)
      subst hins
      have htext : s.text = (payloads rest).flatten ++ p := by
        rw [h1, hstack]
        simp [payloads]
      have hl : ((payloads rest).flatten).length < SIZE_MOD := by
        rw [htext, List.length_append] at hlen
        omega
      refine ⟨_, _, undo_insert_top s p rest _ hstack htext hl, ?_⟩
      obtain ⟨t, u, r, f⟩ := s
      simp only at hstack htext
      simp [redo, hstack, htext]

/-- Witness for C20, amended: the state after `insert("ab")`, `insert("c")`. -/
theorem insertOnly_spec_witness :
    (⟨"ab c".toList, [Action.Insert " c".toList, Action.Insert "ab".toList], [], []⟩ :
      Editor).undoStack ≠ [] ∧
    ("ab c".toList).length < SIZE_MOD ∧
    ∃ s' : Editor, ∃ o : Option Output,
      undo ⟨"ab c".toList, [Action.Insert " c".toList, Action.Insert "ab".toList], [], []⟩
        = .ok (s', o) ∧
      (redo s').1
        = ⟨"ab c".toList, [Action.Insert " c".toList, Action.Insert "ab".toList], [], []⟩ :=
  ⟨by decide, by decide,
   (insertOnly_spec
     ⟨"ab c".toList, [Action.Insert " c".toList, Action.Insert "ab".toList], [], []⟩
     (ReachableInsertOnly.insert _ "c".toList
       (ReachableInsertOnly.insert _ "ab".toList ReachableInsertOnly.empty))).2.2.2
     (by decide) (by decide)⟩

end DynamicStackBasedTextEditor
